import Mathlib

/-!
Shallow embedding of the LinkedIn-lead classification-and-deduplication
pipeline: the weighted-keyword category scorer, the title parser, the lead
builder, the URL-keyed deduplicator and the CSV serializer, together with
theorems settling the specification's claims about them.

Text is modelled as Lean `String`/`List Char`; the JavaScript string
operations used by the code (`toLowerCase`, `includes`, `trim`, `split`,
`join`, template literals) are embedded as executable functions below.
-/

set_option autoImplicit false

/-! ## Text utilities (JavaScript string semantics) -/

/-- The character class matched by JavaScript's `\s` and removed by
`String.prototype.trim`: ASCII blanks plus the Unicode space separators,
line separators and the byte-order mark, given here by codepoint. -/
def jsWhitespace (c : Char) : Bool :=
  let n := c.toNat
  n == 0x20 || n == 0x09 || n == 0x0a || n == 0x0d || n == 0x0b || n == 0x0c ||
  n == 0xa0 || n == 0x1680 || (0x2000 ≤ n && n ≤ 0x200a) ||
  n == 0x2028 || n == 0x2029 || n == 0x202f || n == 0x205f || n == 0x3000 || n == 0xfeff

/-- JavaScript `String.prototype.toLowerCase` (ASCII case mapping, which is
all the pipeline's keyword matching relies on). -/
def lowerStr (s : String) : String :=
  ⟨s.data.map Char.toLower⟩

/-- JavaScript `String.prototype.trim`: drop whitespace from both ends. -/
def trimJs (s : String) : String :=
  ⟨(((s.data.dropWhile jsWhitespace).reverse.dropWhile jsWhitespace).reverse)⟩

/-- Boolean prefix test on character lists. -/
def isPrefixOfChars : List Char → List Char → Bool
  | [], _ => true
  | _ :: _, [] => false
  | a :: as, b :: bs => a == b && isPrefixOfChars as bs

/-- Substring occurrence test on character lists (the empty pattern occurs
in every list), scanning left to right. -/
def containsSub (pat : List Char) : List Char → Bool
  | [] => pat.isEmpty
  | b :: bs => isPrefixOfChars pat (b :: bs) || containsSub pat bs

/-- JavaScript `haystack.includes(pat)`. -/
def strIncludes (s pat : String) : Bool :=
  containsSub pat.data s.data

/-- Worker for `splitOnStr`: scan left to right, emitting the accumulated
segment at each non-overlapping occurrence of the separator.  The scan
consumes at least one character per step, so with fuel set to the input
length the fuel-exhausted fallback arm is never taken; structural
recursion on the fuel keeps the function kernel-reducible. -/
def splitSepGo (sep : List Char) : Nat → List Char → List Char → List (List Char)
  | _, acc, [] => [acc.reverse]
  | 0, acc, l => [acc.reverse ++ l]
  | fuel + 1, acc, c :: rest =>
      if isPrefixOfChars sep (c :: rest) then
        acc.reverse :: splitSepGo sep fuel [] (List.drop (sep.length - 1) rest)
      else splitSepGo sep fuel (c :: acc) rest

/-- JavaScript `s.split(sep)` for a non-empty separator. -/
def splitOnStr (s sep : String) : List String :=
  (splitSepGo sep.data s.data.length [] s.data).map (fun l => ⟨l⟩)

/-- JavaScript `parts.join(sep)`. -/
def joinSep (sep : String) : List String → String
  | [] => ""
  | [a] => a
  | a :: rest => a ++ sep ++ joinSep sep rest

/-! ## Data model (src/lib/types.ts) -/

inductive LeadCategory where
  | kitchenTenant
  | officeTenant
  | eventClient
  | uncategorized
deriving DecidableEq

inductive Confidence where
  | high
  | medium
  | low
deriving DecidableEq

structure Lead where
  id : String
  name : String
  headline : String
  profileUrl : String
  snippet : String
  category : LeadCategory
  confidence : Confidence
  source : String
  scrapedAt : String
deriving DecidableEq

structure SerpApiResult where
  position : Nat
  title : String
  link : String
  snippet : String
deriving DecidableEq

/-! ## Keyword tables (CATEGORY_KEYWORDS and LOCATION_KEYWORDS) -/

/-- Weighted keyword groups for the Kitchen Tenant category. -/
def kitchenGroups : List (List String × Nat) :=
  [ (["catering", "caterer", "catering business", "catering company"], 10),
    (["food truck", "mobile food", "food trailer"], 10),
    (["ghost kitchen", "virtual kitchen", "cloud kitchen", "delivery kitchen"], 10),
    (["private chef", "personal chef", "executive chef"], 8),
    (["meal prep", "meal delivery", "healthy meals", "prepared meals"], 8),
    (["chef owner", "culinary entrepreneur", "food entrepreneur"], 7),
    (["commercial kitchen", "commissary", "shared kitchen"], 9),
    (["food production", "food manufacturing"], 6) ]

/-- Weighted keyword groups for the Office Tenant category. -/
def officeGroups : List (List String × Nat) :=
  [ (["food consultant", "culinary consultant", "restaurant consultant"], 10),
    (["food brand", "cpg", "consumer packaged goods"], 10),
    (["food startup", "food tech", "foodtech"], 9),
    (["restaurant group", "hospitality management"], 7),
    (["food marketing", "food branding"], 6),
    (["nutrition consultant", "dietitian", "nutritionist"], 5) ]

/-- Weighted keyword groups for the Event Client category. -/
def eventGroups : List (List String × Nat) :=
  [ (["event planner", "event planning", "event coordinator"], 10),
    (["wedding planner", "wedding coordinator", "bridal"], 10),
    (["corporate events", "event management", "event producer"], 9),
    (["party planner", "celebration", "special events"], 8),
    (["venue coordinator", "banquet", "reception"], 7) ]

/-- Region-name tokens for the location-relevance bonus. -/
def locationKeywords : List String :=
  [ "baltimore", "maryland", "md", "dc", "washington", "dmv",
    "annapolis", "columbia", "silver spring", "bethesda", "rockville",
    "towson", "glen burnie", "dundalk", "essex", "middle river" ]

/-! ## Category scorer (categorizeLead) -/

/-- Score vector over the three real categories.  The source's record also
carries a constant-zero Uncategorized bucket, which every consumer filters
out; it is represented by `scoreOf` returning 0 for it. -/
structure Scores where
  kitchen : Nat
  office : Nat
  event : Nat
deriving DecidableEq

def scoreOf (s : Scores) : LeadCategory → Nat
  | .kitchenTenant => s.kitchen
  | .officeTenant => s.office
  | .eventClient => s.event
  | .uncategorized => 0

def addToCategory (s : Scores) : LeadCategory → Nat → Scores
  | .kitchenTenant, n => { s with kitchen := s.kitchen + n }
  | .officeTenant, n => { s with office := s.office + n }
  | .eventClient, n => { s with event := s.event + n }
  | .uncategorized, _ => s

/-- One keyword group's contribution: each keyword whose lowercase form
occurs in the text adds the group's weight once per table entry. -/
def groupScore (text : String) (g : List String × Nat) : Nat :=
  (g.1.filter (fun kw => strIncludes text (lowerStr kw))).length * g.2

def categoryScore (text : String) (groups : List (List String × Nat)) : Nat :=
  (groups.map (groupScore text)).sum

/-- Keyword scores for the three real categories over the combined text. -/
def baseScores (text : String) : Scores :=
  { kitchen := categoryScore text kitchenGroups,
    office := categoryScore text officeGroups,
    event := categoryScore text eventGroups }

def hasLocationRelevance (text : String) : Bool :=
  locationKeywords.any (fun loc => strIncludes text (lowerStr loc))

/-- The real-category score entries in declaration order, as produced by
`Object.entries(scores)` filtered of the Uncategorized bucket. -/
def realEntries (s : Scores) : List (LeadCategory × Nat) :=
  [(.kitchenTenant, s.kitchen), (.officeTenant, s.office), (.eventClient, s.event)]

/-- Insert into a descending-sorted list, after all entries with a score
greater than or equal to the new one (so equal scores keep arrival order). -/
def insertDesc (x : LeadCategory × Nat) : List (LeadCategory × Nat) → List (LeadCategory × Nat)
  | [] => [x]
  | y :: ys => if x.2 ≤ y.2 then y :: insertDesc x ys else x :: y :: ys

/-- The stable descending sort performed by `.sort(([, a], [, b]) => b - a)`
(JavaScript array sort is stable, so ties keep declaration order). -/
def sortDesc (l : List (LeadCategory × Nat)) : List (LeadCategory × Nat) :=
  l.foldl (fun acc x => insertDesc x acc) []

/-- Location bonus: when a region token occurs, add 3 to the currently
highest-scoring real category, provided its score is positive. -/
def applyLocationBonus (text : String) (s : Scores) : Scores :=
  if hasLocationRelevance text then
    match (sortDesc (realEntries s)).head? with
    | some (c, _) => if 0 < scoreOf s c then addToCategory s c 3 else s
    | none => s
  else s

structure CategorizationResult where
  category : LeadCategory
  confidence : Confidence
  scores : Scores
deriving DecidableEq

/-- The category scorer.  The threshold test `topScore > secondScore * 1.5`
is computed by JavaScript over exact small integers (and exact halves), so
it is equivalent to `3 * secondScore < 2 * topScore` over naturals. -/
def categorizeLead (title snippet : String) : CategorizationResult :=
  let combinedText := lowerStr (title ++ " " ++ snippet)
  let s := applyLocationBonus combinedText (baseScores combinedText)
  let sorted := sortDesc (realEntries s)
  let top := sorted.headD (.uncategorized, 0)
  let secondScore := ((sorted.drop 1).headD (.uncategorized, 0)).2
  if top.2 = 0 then ⟨.uncategorized, .low, s⟩
  else if 15 ≤ top.2 ∧ 3 * secondScore < 2 * top.2 then ⟨top.1, .high, s⟩
  else if 8 ≤ top.2 then ⟨top.1, .medium, s⟩
  else ⟨top.1, .low, s⟩

/-! ## Title parser (extractNameFromTitle / extractHeadlineFromTitle) -/

/-- Strip a trailing `| LinkedIn` marker: the anchored, case-insensitive
replacement of a maximal `whitespace, bar, whitespace, "linkedin",
whitespace` suffix by the empty string, leaving the title unchanged when no
such suffix exists. -/
def stripLinkedInSuffix (title : String) : String :=
  let r := title.data.reverse
  let r1 := r.dropWhile jsWhitespace
  if (r1.take 8).map Char.toLower = ("nideknil").data then
    let r2 := (r1.drop 8).dropWhile jsWhitespace
    match r2 with
    | '|' :: r3 => ⟨(r3.dropWhile jsWhitespace).reverse⟩
    | _ => title
  else title

/-- Name extraction: split the cleaned title on `" - "` and trim the first
segment (the whole cleaned title when the split yields nothing). -/
def extractNameFromTitle (title : String) : String :=
  let cleaned := stripLinkedInSuffix title
  let parts := splitOnStr cleaned (" - ")
  if parts.length > 0 then trimJs (parts.headD ("")) else trimJs cleaned

/-- Headline extraction: rejoin every segment after the first with `" - "`
and trim, or the empty string when there is at most one segment. -/
def extractHeadlineFromTitle (title : String) : String :=
  let cleaned := stripLinkedInSuffix title
  let parts := splitOnStr cleaned (" - ")
  if parts.length > 1 then trimJs (joinSep (" - ") (parts.drop 1)) else ""

/-! ## Lead builder (serpResultToLead) -/

/-- The decimal digit characters used by JavaScript number formatting. -/
def digitChar : Nat → Char
  | 0 => '0' | 1 => '1' | 2 => '2' | 3 => '3' | 4 => '4'
  | 5 => '5' | 6 => '6' | 7 => '7' | 8 => '8' | _ => '9'

/-- Worker for `toDecimal`; each step divides by ten, so fuel equal to the
number itself always suffices and the fuel-exhausted arm is never taken
(structural recursion on the fuel keeps the function kernel-reducible). -/
def toDecimalGo : Nat → Nat → List Char
  | 0, n => [digitChar n]
  | fuel + 1, n =>
      if n < 10 then [digitChar n]
      else toDecimalGo fuel (n / 10) ++ [digitChar (n % 10)]

/-- Decimal digit list of a natural number, most significant digit first,
as produced by a JavaScript template literal for an integer. -/
def toDecimal (n : Nat) : List Char := toDecimalGo n n

def natStr (n : Nat) : String := ⟨toDecimal n⟩

/-- The template literal `lead-${now}-${position}` forming a lead id. -/
def mkId (now position : Nat) : String :=
  ("lead-" ++ natStr now ++ "-") ++ natStr position

/-- Build a Lead from one search result.  `now` stands for the value of
`Date.now()` at construction time and `scrapedAtStamp` for the ISO
timestamp, both read from the clock by the source. -/
def serpResultToLead (now : Nat) (scrapedAtStamp : String) (result : SerpApiResult)
    (queryCategory : LeadCategory) (queryLabel : String) : Lead :=
  let name := extractNameFromTitle result.title
  let headline := extractHeadlineFromTitle result.title
  let r := categorizeLead result.title result.snippet
  let finalCategory := if r.category = .uncategorized then queryCategory else r.category
  { id := mkId now result.position,
    name := name,
    headline := headline,
    profileUrl := result.link,
    snippet := result.snippet,
    category := finalCategory,
    confidence := if r.category = .uncategorized then .low else r.confidence,
    source := queryLabel,
    scrapedAt := scrapedAtStamp }

/-! ## Deduplicator (deduplicateLeads) -/

def confidenceOrder : Confidence → Nat
  | .high => 3
  | .medium => 2
  | .low => 1

/-- Normalized dedup key: lowercase the URL and strip one trailing slash. -/
def normalizeUrl (u : String) : String :=
  let l := lowerStr u
  match l.data.reverse with
  | '/' :: rest => ⟨rest.reverse⟩
  | _ => l

def normKey (lead : Lead) : String := normalizeUrl lead.profileUrl

/-- Lookup in the insertion-ordered map of seen leads. -/
def seenFind (key : String) : List (String × Lead) → Option Lead
  | [] => none
  | (k, v) :: rest => if k = key then some v else seenFind key rest

/-- `Map.set` on an existing key: replace the value in place. -/
def updateAssoc (key : String) (lead : Lead) : List (String × Lead) → List (String × Lead)
  | [] => []
  | (k, v) :: rest => if k = key then (k, lead) :: rest else (k, v) :: updateAssoc key lead rest

/-- One iteration of the dedup loop: record an unseen key at the end, and
replace a seen key's lead exactly when the new confidence is strictly
higher. -/
def dedupStep (seen : List (String × Lead)) (lead : Lead) : List (String × Lead) :=
  let key := normKey lead
  match seenFind key seen with
  | none => seen ++ [(key, lead)]
  | some existing =>
      if confidenceOrder existing.confidence < confidenceOrder lead.confidence then
        updateAssoc key lead seen
      else seen

/-- Deduplicate by normalized profile URL, emitting the surviving leads in
first-seen key order. -/
def deduplicateLeads (leads : List Lead) : List Lead :=
  (leads.foldl dedupStep []).map Prod.snd

/-! ## CSV serializer (escapeCSVField / leadsToCSV) -/

/-- A field must be quoted when it contains a comma, a double quote, a line
feed or a carriage return, each tested by substring search. -/
def needsQuoting (s : String) : Bool :=
  strIncludes s (",") || strIncludes s ("\"") || strIncludes s ("\n") || strIncludes s ("\r")

/-- `value.replace(/"/g, s)` with a doubled quote: double every `"`. -/
def doubleQuotes (s : String) : String :=
  ⟨s.data.foldr (fun c acc => if c = '"' then '"' :: '"' :: acc else c :: acc) []⟩

def escapeCSVField (value : String) : String :=
  if needsQuoting value then ("\"" ++ doubleQuotes value ++ "\"") else value

def csvHeaders : List String :=
  ["Name", "Headline", "Category", "Confidence", "Profile URL", "Snippet",
   "Source Query", "Scraped At"]

def leadCategoryText : LeadCategory → String
  | .kitchenTenant => "Kitchen Tenant"
  | .officeTenant => "Office Tenant"
  | .eventClient => "Event Client"
  | .uncategorized => "Uncategorized"

def confidenceText : Confidence → String
  | .high => "High"
  | .medium => "Medium"
  | .low => "Low"

def leadRow (lead : Lead) : List String :=
  [lead.name, lead.headline, leadCategoryText lead.category,
   confidenceText lead.confidence, lead.profileUrl, lead.snippet,
   lead.source, lead.scrapedAt]

/-- CSV text: empty input yields the empty string with no header;
otherwise a header row followed by one escaped row per lead, joined by
line feeds. -/
def leadsToCSV (leads : List Lead) : String :=
  if leads.length = 0 then ""
  else
    let headerRow := String.intercalate (",") (csvHeaders.map escapeCSVField)
    let dataRows := leads.map (fun lead => String.intercalate (",") ((leadRow lead).map escapeCSVField))
    String.intercalate ("\n") (headerRow :: dataRows)

/-! ## Batch build (scrapeLinkedInLeads / batchScrapeLeads) -/

/-- Per-query lead construction: the scrape action maps results to leads,
overriding each result's position with its index in the filtered list.
`ts i` is the `Date.now()` reading and `stamp i` the ISO timestamp when
lead `i` is built. -/
def queryLeadsAux (ts : Nat → Nat) (stamp : Nat → String) (cat : LeadCategory)
    (label : String) : Nat → List SerpApiResult → List Lead
  | _, [] => []
  | i, r :: rest =>
      serpResultToLead (ts i) (stamp i) { r with position := i } cat label ::
        queryLeadsAux ts stamp cat label (i + 1) rest

def queryLeads (ts : Nat → Nat) (stamp : Nat → String) (cat : LeadCategory)
    (label : String) (results : List SerpApiResult) : List Lead :=
  queryLeadsAux ts stamp cat label 0 results

/-- One query of a batch: its (already URL-filtered) results, declared
category and display label. -/
structure BatchQuery where
  results : List SerpApiResult
  category : LeadCategory
  label : String

/-- Accumulated leads of a batch run, query by query in order; `ts q i` is
the `Date.now()` reading when lead `i` of query `q` is built. -/
def batchLeadsAux (ts : Nat → Nat → Nat) (stamp : Nat → Nat → String) :
    Nat → List BatchQuery → List Lead
  | _, [] => []
  | q, spec :: rest =>
      queryLeads (ts q) (stamp q) spec.category spec.label spec.results ++
        batchLeadsAux ts stamp (q + 1) rest

def batchLeads (ts : Nat → Nat → Nat) (stamp : Nat → Nat → String)
    (qs : List BatchQuery) : List Lead :=
  batchLeadsAux ts stamp 0 qs

/-! ## Spec-side reference definitions

These follow the specification's wording (closed-form ranking, first-seen
key order, character containment, segment description) and are compared
with the source-derived definitions above by the claim theorems. -/

/-- The real category with the maximum score, ties broken by declaration
order Kitchen Tenant, Office Tenant, Event Client. -/
def specTopCategory (s : Scores) : LeadCategory :=
  if s.office ≤ s.kitchen ∧ s.event ≤ s.kitchen then .kitchenTenant
  else if s.event ≤ s.office then .officeTenant
  else .eventClient

/-- The maximum real-category score. -/
def specTopScore (s : Scores) : Nat :=
  max s.kitchen (max s.office s.event)

/-- The second-largest real-category score, counted with multiplicity. -/
def specSecondScore (s : Scores) : Nat :=
  max (min s.kitchen s.office) (min (max s.kitchen s.office) s.event)

/-- Append a key if it has not been seen yet. -/
def insertKey (ks : List String) (k : String) : List String :=
  if k ∈ ks then ks else ks ++ [k]

/-- The normalized keys of a lead list in first-seen order, as the
specification describes the deduplicator's output order. -/
def specFirstSeenKeys (leads : List Lead) : List String :=
  leads.foldl (fun ks l => insertKey ks (normKey l)) []

/-- The specification's quoting condition: the raw field text contains a
comma, a double quote, a line feed or a carriage return character. -/
def specNeedsQuoting (s : String) : Bool :=
  s.data.contains ',' || s.data.contains '"' || s.data.contains '\n' || s.data.contains '\r'

/-- The specification's name rule: the first `" - "`-separated segment of
the suffix-stripped title, trimmed (the entire trimmed string when no
delimiter exists). -/
def specNameFromTitle (title : String) : String :=
  let cleaned := stripLinkedInSuffix title
  trimJs ((splitOnStr cleaned (" - ")).headD cleaned)

/-- The specification's headline rule: the remaining segments rejoined with
`" - "` and trimmed (empty when there was no delimiter). -/
def specHeadlineFromTitle (title : String) : String :=
  trimJs (joinSep (" - ") ((splitOnStr (stripLinkedInSuffix title) (" - ")).drop 1))

/-- The specification's merge of a stored lead with a later duplicate of
its key: the new lead replaces the stored one exactly when its confidence
strictly exceeds it under High(3) > Medium(2) > Low(1); otherwise the new
lead is discarded. -/
def specMergeLead (stored new : Lead) : Lead :=
  if confidenceOrder stored.confidence < confidenceOrder new.confidence then new else stored

/-- Fold the specification's merge over a key's duplicates in input order,
starting from an already-stored lead when there is one and recording the
first duplicate otherwise. -/
def specMergeInto (o : Option Lead) (ls : List Lead) : Option Lead :=
  match o, ls with
  | some v, f => some (f.foldl specMergeLead v)
  | none, [] => none
  | none, x :: xs => some (xs.foldl specMergeLead x)

/-- The lead the specification says survives for key `k`: the first input
lead with that normalized URL, merged left to right with each later
duplicate. -/
def specStoredFor (k : String) (leads : List Lead) : Option Lead :=
  specMergeInto none (leads.filter (fun l => normKey l = k))

/-! ## Value reading of decimal digit lists (proof tool for id uniqueness) -/

def digitVal (c : Char) : Nat := c.toNat - 48

def fromDecimal (l : List Char) : Nat :=
  l.foldl (fun acc c => 10 * acc + digitVal c) 0

/-! ## Concrete inputs used by counterexamples and witnesses -/

/-- The specification's end-to-end example candidate. -/
def janeDoeResult : SerpApiResult :=
  { position := 0,
    title := "Jane Doe - Owner, Baltimore Catering Co | LinkedIn",
    link := "https://linkedin.com/in/janedoe/",
    snippet := "catering owner serving Baltimore weddings" }

/-- A result with empty text fields. -/
def emptyResult : SerpApiResult :=
  { position := 0, title := "", link := "", snippet := "" }

/-- A low-confidence lead whose URL normalizes like `leadHigh`'s. -/
def leadLow : Lead :=
  { id := "a", name := "A", headline := "", profileUrl := "x/", snippet := "",
    category := .kitchenTenant, confidence := .low, source := "q", scrapedAt := "t" }

/-- A high-confidence lead whose URL normalizes like `leadLow`'s. -/
def leadHigh : Lead :=
  { id := "b", name := "B", headline := "", profileUrl := "X", snippet := "",
    category := .eventClient, confidence := .high, source := "q", scrapedAt := "t" }

/-! ## Ranking lemmas: the stable 3-entry sort against its closed form -/

theorem sortDesc_realEntries_head (s : Scores) :
    (sortDesc (realEntries s)).head? = some (specTopCategory s, specTopScore s) := by
  by_cases h1 : s.office ≤ s.kitchen <;>
  by_cases h2 : s.event ≤ s.kitchen <;>
  by_cases h3 : s.event ≤ s.office <;>
  (try simp_all [sortDesc, realEntries, insertDesc, specTopCategory, specTopScore]) <;>
  (try split_ifs) <;> (try simp_all [insertDesc]) <;> (try split_ifs) <;>
  (try simp_all) <;> omega

theorem sortDesc_realEntries_headD (s : Scores) :
    (sortDesc (realEntries s)).headD (.uncategorized, 0) = (specTopCategory s, specTopScore s) := by
  by_cases h1 : s.office ≤ s.kitchen <;>
  by_cases h2 : s.event ≤ s.kitchen <;>
  by_cases h3 : s.event ≤ s.office <;>
  (try simp_all [sortDesc, realEntries, insertDesc, specTopCategory, specTopScore]) <;>
  (try split_ifs) <;> (try simp_all [insertDesc]) <;> (try split_ifs) <;>
  (try simp_all) <;> omega

theorem sortDesc_realEntries_second (s : Scores) :
    (((sortDesc (realEntries s)).drop 1).headD (.uncategorized, 0)).2 = specSecondScore s := by
  by_cases h1 : s.office ≤ s.kitchen <;>
  by_cases h2 : s.event ≤ s.kitchen <;>
  by_cases h3 : s.event ≤ s.office <;>
  (try simp_all [sortDesc, realEntries, insertDesc, specSecondScore]) <;>
  (try split_ifs) <;> (try simp_all [insertDesc]) <;> (try split_ifs) <;>
  (try simp_all) <;> omega

theorem scoreOf_specTopCategory (s : Scores) :
    scoreOf s (specTopCategory s) = specTopScore s := by
  by_cases h1 : s.office ≤ s.kitchen <;>
  by_cases h2 : s.event ≤ s.kitchen <;>
  by_cases h3 : s.event ≤ s.office <;>
  (try simp_all [specTopCategory, specTopScore, scoreOf]) <;>
  (try split_ifs) <;> (try simp_all [scoreOf]) <;> omega

/-! ## Deduplicator lemmas -/

theorem keys_updateAssoc (k : String) (v : Lead) (l : List (String × Lead)) :
    (updateAssoc k v l).map Prod.fst = l.map Prod.fst := by
  induction l with
  | nil => rfl
  | cons x xs ih =>
      cases x
      simp only [updateAssoc]
      split_ifs <;> simp_all

theorem seenFind_eq_none_iff (k : String) (l : List (String × Lead)) :
    seenFind k l = none ↔ k ∉ l.map Prod.fst := by
  induction l with
  | nil => simp [seenFind]
  | cons x xs ih =>
      cases x
      simp only [seenFind]
      split_ifs <;> simp_all
      tauto

theorem keys_dedupStep (seen : List (String × Lead)) (lead : Lead) :
    (dedupStep seen lead).map Prod.fst = insertKey (seen.map Prod.fst) (normKey lead) := by
  unfold dedupStep insertKey
  cases hfind : seenFind (normKey lead) seen with
  | none =>
      have hk : normKey lead ∉ seen.map Prod.fst := (seenFind_eq_none_iff _ _).mp hfind
      simp [hfind, hk]
  | some v =>
      have hmem : normKey lead ∈ seen.map Prod.fst := by
        by_contra hc
        rw [(seenFind_eq_none_iff _ _).mpr hc] at hfind
        exact Option.noConfusion hfind
      simp [hfind, hmem]
      split_ifs <;> simp [keys_updateAssoc]

theorem keys_foldl_dedupStep (leads : List Lead) :
    ∀ seen : List (String × Lead),
      ((leads.foldl dedupStep seen).map Prod.fst) =
        leads.foldl (fun ks l => insertKey ks (normKey l)) (seen.map Prod.fst) := by
  induction leads with
  | nil => intro seen; rfl
  | cons x xs ih =>
      intro seen
      simp only [List.foldl_cons]
      rw [ih (dedupStep seen x), keys_dedupStep]

theorem insertKey_nodup (ks : List String) (k : String) (h : ks.Nodup) :
    (insertKey ks k).Nodup := by
  unfold insertKey
  split_ifs with hmem
  · exact h
  · simp [List.nodup_append, h, hmem]

theorem mem_insertKey (ks : List String) (k x : String) :
    x ∈ insertKey ks k ↔ x ∈ ks ∨ x = k := by
  unfold insertKey
  split_ifs with hmem
  · constructor
    · exact Or.inl
    · rintro (hx | rfl) <;> [exact hx; exact hmem]
  · simp

theorem foldl_insertKey_nodup (leads : List Lead) :
    ∀ ks : List String, ks.Nodup →
      (leads.foldl (fun ks l => insertKey ks (normKey l)) ks).Nodup := by
  induction leads with
  | nil => intro ks h; exact h
  | cons x xs ih => intro ks h; exact ih _ (insertKey_nodup _ _ h)

theorem mem_foldl_insertKey (leads : List Lead) :
    ∀ (ks : List String) (x : String),
      x ∈ leads.foldl (fun ks l => insertKey ks (normKey l)) ks ↔
        x ∈ ks ∨ ∃ l ∈ leads, normKey l = x := by
  induction leads with
  | nil => intro ks x; simp
  | cons y ys ih =>
      intro ks x
      simp only [List.foldl_cons, ih, mem_insertKey, List.mem_cons]
      constructor
      · rintro ((hx | rfl) | ⟨l, hl, rfl⟩)
        · exact Or.inl hx
        · exact Or.inr ⟨y, Or.inl rfl, rfl⟩
        · exact Or.inr ⟨l, Or.inr hl, rfl⟩
      · rintro (hx | ⟨l, (rfl | hl), rfl⟩)
        · exact Or.inl (Or.inl hx)
        · exact Or.inl (Or.inr rfl)
        · exact Or.inr ⟨l, hl, rfl⟩

theorem mem_updateAssoc (k : String) (v : Lead) (l : List (String × Lead))
    (e : String × Lead) (he : e ∈ updateAssoc k v l) :
    e ∈ l ∨ e = (k, v) := by
  induction l with
  | nil => simp [updateAssoc] at he
  | cons z zs ih =>
      cases z with
      | mk a b =>
          simp only [updateAssoc] at he
          split_ifs at he with hz
          · rcases List.mem_cons.mp he with rfl | h
            · exact Or.inr (by rw [hz])
            · exact Or.inl (List.mem_cons_of_mem _ h)
          · rcases List.mem_cons.mp he with rfl | h
            · exact Or.inl (List.mem_cons_self _ _)
            · rcases ih h with h' | h'
              · exact Or.inl (List.mem_cons_of_mem _ h')
              · exact Or.inr h'

theorem entry_key_eq (leads : List Lead) :
    ∀ seen : List (String × Lead), (∀ e ∈ seen, e.1 = normKey e.2) →
      ∀ e ∈ leads.foldl dedupStep seen, e.1 = normKey e.2 := by
  induction leads with
  | nil => intro seen hseen e he; exact hseen e he
  | cons x xs ih =>
      intro seen hseen e he
      refine ih (dedupStep seen x) ?_ e he
      intro e' he'
      unfold dedupStep at he'
      cases hfind : seenFind (normKey x) seen with
      | none =>
          simp only [hfind] at he'
          rcases List.mem_append.mp he' with h | h
          · exact hseen e' h
          · simp at h
            subst h
            rfl
      | some v =>
          simp only [hfind] at he'
          split_ifs at he' with hc
          · rcases mem_updateAssoc _ _ _ _ he' with h | h
            · exact hseen e' h
            · subst h
              rfl
          · exact hseen e' he'

theorem mem_dedupStep (seen : List (String × Lead)) (lead : Lead) (e : String × Lead)
    (he : e ∈ dedupStep seen lead) : e ∈ seen ∨ e = (normKey lead, lead) := by
  unfold dedupStep at he
  cases hfind : seenFind (normKey lead) seen with
  | none =>
      simp only [hfind] at he
      rcases List.mem_append.mp he with h | h
      · exact Or.inl h
      · simp at h
        exact Or.inr h
  | some v =>
      simp only [hfind] at he
      split_ifs at he with hc
      · exact mem_updateAssoc _ _ _ _ he
      · exact Or.inl he

theorem mem_foldl_dedupStep (leads : List Lead) :
    ∀ (seen : List (String × Lead)) (e : String × Lead),
      e ∈ leads.foldl dedupStep seen → e ∈ seen ∨ e.2 ∈ leads := by
  induction leads with
  | nil => intro seen e he; exact Or.inl he
  | cons x xs ih =>
      intro seen e he
      rcases ih (dedupStep seen x) e he with h | h
      · rcases mem_dedupStep _ _ _ h with h' | h'
        · exact Or.inl h'
        · subst h'
          exact Or.inr (List.mem_cons_self _ _)
      · exact Or.inr (List.mem_cons_of_mem _ h)

theorem mem_deduplicateLeads (leads : List Lead) (l : Lead)
    (h : l ∈ deduplicateLeads leads) : l ∈ leads := by
  unfold deduplicateLeads at h
  rcases List.mem_map.mp h with ⟨e, he, rfl⟩
  rcases mem_foldl_dedupStep leads [] e he with h' | h'
  · simp at h'
  · exact h'

theorem dedup_map_normKey (leads : List Lead) :
    (deduplicateLeads leads).map normKey = specFirstSeenKeys leads := by
  unfold deduplicateLeads specFirstSeenKeys
  rw [List.map_map]
  have h1 : ∀ e ∈ leads.foldl dedupStep [], (normKey ∘ Prod.snd) e = Prod.fst e :=
    fun e he => (entry_key_eq leads [] (by simp) e he).symm
  rw [List.map_congr_left h1, keys_foldl_dedupStep]
  rfl

theorem specFirstSeenKeys_nodup (leads : List Lead) : (specFirstSeenKeys leads).Nodup :=
  foldl_insertKey_nodup leads [] List.nodup_nil

theorem foldl_dedupStep_fresh (leads : List Lead) :
    ∀ seen : List (String × Lead),
      (∀ l ∈ leads, normKey l ∉ seen.map Prod.fst) → (leads.map normKey).Nodup →
      leads.foldl dedupStep seen = seen ++ leads.map (fun l => (normKey l, l)) := by
  induction leads with
  | nil => intro seen _ _; simp
  | cons x xs ih =>
      intro seen hfresh hnodup
      have hnone : seenFind (normKey x) seen = none :=
        (seenFind_eq_none_iff _ _).mpr (hfresh x (List.mem_cons_self _ _))
      have hstep : dedupStep seen x = seen ++ [(normKey x, x)] := by
        unfold dedupStep
        simp only [hnone]
      simp only [List.foldl_cons, hstep]
      rw [ih (seen ++ [(normKey x, x)]) ?_ ?_]
      · simp
      · intro l hl
        have hcons : (∀ y ∈ xs, ¬ normKey y = normKey x) ∧ (xs.map normKey).Nodup := by
          simpa using hnodup
        simp only [List.map_append, List.mem_append]
        rintro (h | h)
        · exact hfresh l (List.mem_cons_of_mem _ hl) h
        · simp at h
          exact hcons.1 l hl h
      · have hcons : (∀ y ∈ xs, ¬ normKey y = normKey x) ∧ (xs.map normKey).Nodup := by
          simpa using hnodup
        exact hcons.2

theorem dedup_of_nodup_keys (leads : List Lead) (h : (leads.map normKey).Nodup) :
    deduplicateLeads leads = leads := by
  unfold deduplicateLeads
  rw [foldl_dedupStep_fresh leads [] (by simp) h]
  simp only [List.nil_append]
  have : (Prod.snd ∘ fun l : Lead => (normKey l, l)) = id := rfl
  rw [List.map_map, this, List.map_id]

theorem seenFind_append (k : String) (s1 s2 : List (String × Lead)) :
    seenFind k (s1 ++ s2) =
      match seenFind k s1 with
      | some v => some v
      | none => seenFind k s2 := by
  induction s1 with
  | nil => rfl
  | cons e rest ih =>
      cases e
      simp only [List.cons_append, seenFind]
      split_ifs <;> simp [ih]

theorem seenFind_updateAssoc (k k' : String) (v : Lead) (l : List (String × Lead)) :
    seenFind k (updateAssoc k' v l) =
      if k' = k then (seenFind k l).map (fun _ => v) else seenFind k l := by
  induction l with
  | nil => simp [updateAssoc, seenFind]
  | cons e rest ih =>
      cases e with
      | mk a b =>
          by_cases h1 : a = k' <;> by_cases h2 : a = k <;> by_cases h3 : k' = k <;>
            simp_all [updateAssoc, seenFind]

theorem seenFind_dedupStep (seen : List (String × Lead)) (x : Lead) (k : String) :
    seenFind k (dedupStep seen x) =
      if normKey x = k then
        some ((seenFind k seen).elim x (fun v => specMergeLead v x))
      else seenFind k seen := by
  unfold dedupStep
  cases hfind : seenFind (normKey x) seen with
  | none =>
      simp only [hfind]
      rw [seenFind_append]
      by_cases hk : normKey x = k
      · subst hk
        rw [hfind]
        simp [seenFind]
      · cases hsk : seenFind k seen <;> simp [seenFind, hk, hsk]
  | some v =>
      simp only [hfind]
      by_cases hk : normKey x = k
      · subst hk
        rw [if_pos rfl, hfind]
        split_ifs with hc
        · rw [seenFind_updateAssoc]
          rw [hfind]
          simp [specMergeLead, hc]
        · rw [hfind]
          simp [specMergeLead, hc]
      · rw [if_neg hk]
        split_ifs with hc
        · rw [seenFind_updateAssoc]
          simp [hk]
        · rfl

theorem seenFind_foldl_dedupStep (leads : List Lead) :
    ∀ (seen : List (String × Lead)) (k : String),
      seenFind k (leads.foldl dedupStep seen) =
        specMergeInto (seenFind k seen) (leads.filter (fun l => normKey l = k)) := by
  induction leads with
  | nil =>
      intro seen k
      simp only [List.foldl_nil, List.filter_nil]
      cases seenFind k seen <;> rfl
  | cons x xs ih =>
      intro seen k
      simp only [List.foldl_cons]
      rw [ih, seenFind_dedupStep]
      by_cases hk : normKey x = k
      · rw [if_pos hk]
        rw [List.filter_cons_of_pos (by simpa using hk)]
        cases hsk : seenFind k seen with
        | none => simp [specMergeInto]
        | some v => simp [specMergeInto, List.foldl_cons]
      · rw [if_neg hk]
        rw [List.filter_cons_of_neg (by simpa using hk)]

theorem filterMap_seenFind_keys :
    ∀ S : List (String × Lead), (S.map Prod.fst).Nodup →
      (S.map Prod.fst).filterMap (fun k => seenFind k S) = S.map Prod.snd := by
  intro S
  induction S with
  | nil => intro _; rfl
  | cons e rest ih =>
      intro hnd
      cases e with
      | mk k₀ v₀ =>
          have h0 : seenFind k₀ ((k₀, v₀) :: rest) = some v₀ := by simp [seenFind]
          have hk₀ : k₀ ∉ rest.map Prod.fst := (List.nodup_cons.mp (by simpa using hnd)).1
          have hcong : ∀ k ∈ rest.map Prod.fst,
              seenFind k ((k₀, v₀) :: rest) = seenFind k rest := by
            intro k hk
            have hne : ¬ k₀ = k := fun h => hk₀ (h ▸ hk)
            simp [seenFind, hne]
          simp only [List.map_cons, List.filterMap_cons, h0]
          rw [List.filterMap_congr hcong, ih (List.nodup_cons.mp (by simpa using hnd)).2]

/-! ## Lead id lemmas: decimal rendering and id injectivity -/

theorem digitVal_digitChar (m : Nat) (h : m < 10) : digitVal (digitChar m) = m := by
  interval_cases m <;> rfl

theorem digitChar_ne_dash (m : Nat) : digitChar m ≠ '-' := by
  unfold digitChar
  split <;> decide

theorem fromDecimal_append_digit (l : List Char) (c : Char) :
    fromDecimal (l ++ [c]) = 10 * fromDecimal l + digitVal c := by
  simp [fromDecimal, List.foldl_append]

theorem fromDecimal_toDecimalGo :
    ∀ fuel n : Nat, n ≤ fuel → fromDecimal (toDecimalGo fuel n) = n := by
  intro fuel
  induction fuel with
  | zero =>
      intro n hn
      have : n = 0 := by omega
      subst this
      rfl
  | succ fuel ih =>
      intro n hn
      rw [toDecimalGo]
      split_ifs with h
      · simp [fromDecimal, digitVal_digitChar n h]
      · rw [fromDecimal_append_digit, ih (n / 10) (by omega),
          digitVal_digitChar _ (Nat.mod_lt _ (by omega))]
        omega

theorem fromDecimal_toDecimal (n : Nat) : fromDecimal (toDecimal n) = n :=
  fromDecimal_toDecimalGo n n (Nat.le_refl n)

theorem toDecimal_injective (a b : Nat) (h : toDecimal a = toDecimal b) : a = b := by
  have := fromDecimal_toDecimal a
  rw [h, fromDecimal_toDecimal] at this
  omega

theorem toDecimalGo_ne_dash : ∀ fuel n : Nat, ∀ c ∈ toDecimalGo fuel n, c ≠ '-' := by
  intro fuel
  induction fuel with
  | zero =>
      intro n c hc
      simp only [toDecimalGo, List.mem_singleton] at hc
      exact hc ▸ digitChar_ne_dash n
  | succ fuel ih =>
      intro n c hc
      rw [toDecimalGo] at hc
      split_ifs at hc with h
      · simp at hc
        exact hc ▸ digitChar_ne_dash n
      · rcases List.mem_append.mp hc with h' | h'
        · exact ih (n / 10) c h'
        · simp at h'
          exact h' ▸ digitChar_ne_dash (n % 10)

theorem toDecimal_ne_dash (n : Nat) : ∀ c ∈ toDecimal n, c ≠ '-' :=
  toDecimalGo_ne_dash n n

theorem strData_append (s t : String) : (s ++ t).data = s.data ++ t.data := by
  cases s
  cases t
  rfl

theorem natStr_data (n : Nat) : (natStr n).data = toDecimal n := rfl

theorem append_dash_inj : ∀ a a' b b' : List Char,
    (∀ c ∈ a, c ≠ '-') → (∀ c ∈ a', c ≠ '-') →
    a ++ '-' :: b = a' ++ '-' :: b' → a = a' ∧ b = b' := by
  intro a
  induction a with
  | nil =>
      intro a' b b' _ h' heq
      cases a' with
      | nil => simpa using heq
      | cons x xs =>
          exfalso
          simp only [List.nil_append, List.cons_append, List.cons.injEq] at heq
          exact h' x (List.mem_cons_self _ _) heq.1.symm
  | cons x xs ih =>
      intro a' b b' h h' heq
      cases a' with
      | nil =>
          exfalso
          simp only [List.nil_append, List.cons_append, List.cons.injEq] at heq
          exact h x (List.mem_cons_self _ _) heq.1
      | cons y ys =>
          simp only [List.cons_append, List.cons.injEq] at heq
          obtain ⟨rfl, heq2⟩ := heq
          obtain ⟨h1, h2⟩ :=
            ih ys b b' (fun c hc => h c (List.mem_cons_of_mem _ hc))
              (fun c hc => h' c (List.mem_cons_of_mem _ hc)) heq2
          exact ⟨by rw [h1], h2⟩

theorem mkId_inj (t p t' p' : Nat) (h : mkId t p = mkId t' p') : t = t' ∧ p = p' := by
  have hdata := congrArg String.data h
  simp only [mkId, strData_append, natStr_data, List.append_assoc] at hdata
  have h2 := List.append_cancel_left hdata
  simp only [List.singleton_append] at h2
  obtain ⟨h4, h5⟩ :=
    append_dash_inj _ _ _ _ (toDecimal_ne_dash t) (toDecimal_ne_dash t') h2
  exact ⟨toDecimal_injective _ _ h4, toDecimal_injective _ _ h5⟩

theorem mem_id_queryLeadsAux (ts : Nat → Nat) (stamp : Nat → String)
    (cat : LeadCategory) (label : String) :
    ∀ (rs : List SerpApiResult) (i : Nat) (x : String),
      x ∈ (queryLeadsAux ts stamp cat label i rs).map Lead.id →
      ∃ j, i ≤ j ∧ x = mkId (ts j) j := by
  intro rs
  induction rs with
  | nil =>
      intro i x hx
      simp [queryLeadsAux] at hx
  | cons r rest ih =>
      intro i x hx
      simp only [queryLeadsAux, List.map_cons, List.mem_cons] at hx
      rcases hx with rfl | hx
      · exact ⟨i, Nat.le_refl i, rfl⟩
      · obtain ⟨j, hj, rfl⟩ := ih (i + 1) x hx
        exact ⟨j, by omega, rfl⟩

theorem nodup_id_queryLeadsAux (ts : Nat → Nat) (stamp : Nat → String)
    (cat : LeadCategory) (label : String) :
    ∀ (rs : List SerpApiResult) (i : Nat),
      ((queryLeadsAux ts stamp cat label i rs).map Lead.id).Nodup := by
  intro rs
  induction rs with
  | nil =>
      intro i
      simp [queryLeadsAux]
  | cons r rest ih =>
      intro i
      simp only [queryLeadsAux, List.map_cons, List.nodup_cons]
      refine ⟨?_, ih (i + 1)⟩
      intro hmem
      obtain ⟨j, hj, heq⟩ := mem_id_queryLeadsAux ts stamp cat label rest (i + 1) _ hmem
      have h2 := (mkId_inj _ _ _ _ heq).2
      simp at h2
      omega

theorem mem_id_batchLeadsAux (ts : Nat → Nat → Nat) (stamp : Nat → Nat → String) :
    ∀ (qs : List BatchQuery) (q : Nat) (x : String),
      x ∈ (batchLeadsAux ts stamp q qs).map Lead.id →
      ∃ q' j, q ≤ q' ∧ x = mkId (ts q' j) j := by
  intro qs
  induction qs with
  | nil =>
      intro q x hx
      simp [batchLeadsAux] at hx
  | cons spec rest ih =>
      intro q x hx
      simp only [batchLeadsAux, List.map_append, List.mem_append] at hx
      rcases hx with hx | hx
      · obtain ⟨j, _, rfl⟩ := mem_id_queryLeadsAux (ts q) (stamp q) spec.category spec.label spec.results 0 x hx
        exact ⟨q, j, Nat.le_refl q, rfl⟩
      · obtain ⟨q', j, hq, rfl⟩ := ih (q + 1) x hx
        exact ⟨q', j, by omega, rfl⟩

theorem nodup_id_batchLeadsAux (ts : Nat → Nat → Nat) (stamp : Nat → Nat → String)
    (hts : ∀ q q' i j, q < q' → ts q i < ts q' j) :
    ∀ (qs : List BatchQuery) (q : Nat),
      ((batchLeadsAux ts stamp q qs).map Lead.id).Nodup := by
  intro qs
  induction qs with
  | nil =>
      intro q
      simp [batchLeadsAux]
  | cons spec rest ih =>
      intro q
      simp only [batchLeadsAux, List.map_append]
      rw [List.nodup_append]
      refine ⟨nodup_id_queryLeadsAux (ts q) (stamp q) spec.category spec.label spec.results 0,
        ih (q + 1), ?_⟩
      intro x hx hx'
      obtain ⟨j, _, rfl⟩ := mem_id_queryLeadsAux (ts q) (stamp q) spec.category spec.label spec.results 0 x hx
      obtain ⟨q', j', hq', heq⟩ := mem_id_batchLeadsAux ts stamp rest (q + 1) _ hx'
      have h1 := (mkId_inj _ _ _ _ heq).1
      have h2 := hts q q' j j' (by omega)
      omega

/-! ## Further helper lemmas -/

theorem containsSub_mem (c : Char) : ∀ l : List Char, containsSub [c] l = true ↔ c ∈ l := by
  intro l
  induction l with
  | nil => simp [containsSub]
  | cons b bs ih =>
      simp [containsSub, isPrefixOfChars, ih, Bool.or_eq_true, beq_iff_eq]

theorem needsQuoting_iff (s : String) :
    needsQuoting s = true ↔
      (',' ∈ s.data ∨ '"' ∈ s.data ∨ '\n' ∈ s.data ∨ '\r' ∈ s.data) := by
  unfold needsQuoting strIncludes
  simp only [containsSub_mem, Bool.or_eq_true]
  tauto

theorem serp_uncat_low (now : Nat) (stamp : String) (r : SerpApiResult)
    (qc : LeadCategory) (lab : String)
    (hcat : (serpResultToLead now stamp r qc lab).category = LeadCategory.uncategorized) :
    (serpResultToLead now stamp r qc lab).confidence = Confidence.low := by
  unfold serpResultToLead at hcat ⊢
  by_cases hr : (categorizeLead r.title r.snippet).category = LeadCategory.uncategorized
  · simp [hr]
  · simp [hr] at hcat

theorem categorizeLead_scores_eq (title snippet : String) :
    (categorizeLead title snippet).scores =
      applyLocationBonus (lowerStr (title ++ " " ++ snippet))
        (baseScores (lowerStr (title ++ " " ++ snippet))) := by
  simp only [categorizeLead]
  split_ifs <;> rfl

/-! ## Claim theorems -/

/-- C1 (counterexample): for the specification's Jane Doe candidate
processed with query category Kitchen Tenant, the claimed resulting
confidence "High" is wrong: the built lead's confidence is not High (the
keyword score is 10 for "catering" plus the location bonus 3, and 13 is
below the High threshold 15). -/
theorem janeDoe_confidence_not_high :
    (serpResultToLead 0 ("2025-01-01T00:00:00.000Z") janeDoeResult
        LeadCategory.kitchenTenant ("Catering Owners")).confidence ≠ Confidence.high := by
  decide

/-- C1 (amended): the Jane Doe candidate with query category Kitchen
Tenant yields a lead with name "Jane Doe", headline "Owner, Baltimore
Catering Co", category Kitchen Tenant — and confidence Medium. -/
theorem janeDoe_lead_fields :
    (serpResultToLead 0 ("2025-01-01T00:00:00.000Z") janeDoeResult
        LeadCategory.kitchenTenant ("Catering Owners")).name = "Jane Doe" ∧
    (serpResultToLead 0 ("2025-01-01T00:00:00.000Z") janeDoeResult
        LeadCategory.kitchenTenant ("Catering Owners")).headline = "Owner, Baltimore Catering Co" ∧
    (serpResultToLead 0 ("2025-01-01T00:00:00.000Z") janeDoeResult
        LeadCategory.kitchenTenant ("Catering Owners")).category = LeadCategory.kitchenTenant ∧
    (serpResultToLead 0 ("2025-01-01T00:00:00.000Z") janeDoeResult
        LeadCategory.kitchenTenant ("Catering Owners")).confidence = Confidence.medium := by
  refine ⟨by decide, by decide, by decide, by decide⟩

/-- C2: the deduplicator processes every input list in order, keyed by
normalized profile URL: its output lists, in first-seen key order, for
each key the first lead with that key merged left to right with every
later duplicate, where a later lead replaces the stored lead exactly when
its confidence strictly exceeds it under High(3) > Medium(2) > Low(1) and
is discarded otherwise; in particular, with one shared key, Low then High
gives the single High lead and High then Low keeps the first lead. -/
theorem dedup_merge_policy (leads : List Lead) :
    deduplicateLeads leads =
      (specFirstSeenKeys leads).filterMap (fun k => specStoredFor k leads) ∧
    deduplicateLeads [leadLow, leadHigh] = [leadHigh] ∧
    deduplicateLeads [leadHigh, leadLow] = [leadHigh] := by
  refine ⟨?_, by decide, by decide⟩
  have hkeys : ((leads.foldl dedupStep []).map Prod.fst) = specFirstSeenKeys leads := by
    rw [keys_foldl_dedupStep]
    rfl
  have hnd : ((leads.foldl dedupStep []).map Prod.fst).Nodup := by
    rw [hkeys]
    exact specFirstSeenKeys_nodup leads
  have hfun : ∀ k ∈ (leads.foldl dedupStep []).map Prod.fst,
      seenFind k (leads.foldl dedupStep []) = specStoredFor k leads := by
    intro k _
    rw [seenFind_foldl_dedupStep]
    rfl
  calc deduplicateLeads leads
      = (leads.foldl dedupStep []).map Prod.snd := rfl
    _ = ((leads.foldl dedupStep []).map Prod.fst).filterMap
          (fun k => seenFind k (leads.foldl dedupStep [])) :=
        (filterMap_seenFind_keys _ hnd).symm
    _ = ((leads.foldl dedupStep []).map Prod.fst).filterMap
          (fun k => specStoredFor k leads) :=
        List.filterMap_congr hfun
    _ = (specFirstSeenKeys leads).filterMap (fun k => specStoredFor k leads) := by
        rw [hkeys]

/-- C3: the category scorer ranks the three real categories by score
descending with ties in declaration order and then follows the decision
table: top score 0 gives (Uncategorized, Low); top at least 15 and
strictly above one-and-a-half times the second gives High; top at least 8
gives Medium; otherwise Low. -/
theorem categorizeLead_decision_table (title snippet : String) :
    (categorizeLead title snippet).category =
      (if specTopScore (categorizeLead title snippet).scores = 0 then .uncategorized
       else specTopCategory (categorizeLead title snippet).scores) ∧
    (categorizeLead title snippet).confidence =
      (if specTopScore (categorizeLead title snippet).scores = 0 then .low
       else if 15 ≤ specTopScore (categorizeLead title snippet).scores ∧
              3 * specSecondScore (categorizeLead title snippet).scores <
                2 * specTopScore (categorizeLead title snippet).scores then .high
       else if 8 ≤ specTopScore (categorizeLead title snippet).scores then .medium
       else .low) := by
  rw [categorizeLead_scores_eq]
  simp only [categorizeLead, sortDesc_realEntries_headD, sortDesc_realEntries_second]
  constructor <;> split_ifs <;> rfl

/-- C4: every lead built by the lead builder and surviving the
deduplicator has confidence Low whenever its category is Uncategorized. -/
theorem dedup_uncategorized_low (leads : List Lead)
    (hbuilt : ∀ l ∈ leads, ∃ now stamp r qc lab, l = serpResultToLead now stamp r qc lab)
    (l : Lead) (hl : l ∈ deduplicateLeads leads)
    (hcat : l.category = LeadCategory.uncategorized) :
    l.confidence = Confidence.low := by
  obtain ⟨now, stamp, r, qc, lab, rfl⟩ := hbuilt l (mem_deduplicateLeads leads l hl)
  exact serp_uncat_low now stamp r qc lab hcat

/-- C4 (witness): a lead built from an empty result under an Uncategorized
query category survives deduplication with confidence Low. -/
theorem dedup_uncategorized_low_witness :
    (serpResultToLead 0 ("t") emptyResult LeadCategory.uncategorized ("q")).confidence
      = Confidence.low := by
  apply dedup_uncategorized_low
    [serpResultToLead 0 ("t") emptyResult LeadCategory.uncategorized ("q")]
  · intro l hl
    rcases List.mem_singleton.mp hl with rfl
    exact ⟨0, "t", emptyResult, LeadCategory.uncategorized, "q", rfl⟩
  · decide
  · decide

/-- C5: in one batch run whose clock readings grow from one query to the
next (the monotone token the claim assumes, secured in the source by the
inter-query delay), no two built leads share an id: each id combines the
clock reading with the lead's position index. -/
theorem batch_ids_nodup (ts : Nat → Nat → Nat) (stamp : Nat → Nat → String)
    (qs : List BatchQuery)
    (hts : ∀ q q' i j, q < q' → ts q i < ts q' j) :
    ((batchLeads ts stamp qs).map Lead.id).Nodup :=
  nodup_id_batchLeadsAux ts stamp hts qs 0

/-- C5 (witness): a concrete two-query batch with three results has
pairwise distinct lead ids. -/
theorem batch_ids_nodup_witness :
    ((batchLeads (fun q _ => q) (fun _ _ => "t")
        [⟨[emptyResult, emptyResult], LeadCategory.kitchenTenant, "q1"⟩,
         ⟨[emptyResult], LeadCategory.eventClient, "q2"⟩]).map Lead.id).Nodup :=
  batch_ids_nodup (fun q _ => q) (fun _ _ => "t")
    [⟨[emptyResult, emptyResult], LeadCategory.kitchenTenant, "q1"⟩,
     ⟨[emptyResult], LeadCategory.eventClient, "q2"⟩]
    (fun _ _ _ _ h => h)

/-- C6: with no region token in the lowercased combined text the scores
are unchanged; with a region token present, nothing changes when every
real score is zero, and otherwise exactly the highest-scoring real
category (ties to the first declared) gains exactly 3. -/
theorem locationBonus_exact (title snippet : String) :
    (hasLocationRelevance (lowerStr (title ++ " " ++ snippet)) = false →
      applyLocationBonus (lowerStr (title ++ " " ++ snippet))
          (baseScores (lowerStr (title ++ " " ++ snippet))) =
        baseScores (lowerStr (title ++ " " ++ snippet))) ∧
    (hasLocationRelevance (lowerStr (title ++ " " ++ snippet)) = true →
      (specTopScore (baseScores (lowerStr (title ++ " " ++ snippet))) = 0 →
        applyLocationBonus (lowerStr (title ++ " " ++ snippet))
            (baseScores (lowerStr (title ++ " " ++ snippet))) =
          baseScores (lowerStr (title ++ " " ++ snippet))) ∧
      (0 < specTopScore (baseScores (lowerStr (title ++ " " ++ snippet))) →
        applyLocationBonus (lowerStr (title ++ " " ++ snippet))
            (baseScores (lowerStr (title ++ " " ++ snippet))) =
          addToCategory (baseScores (lowerStr (title ++ " " ++ snippet)))
            (specTopCategory (baseScores (lowerStr (title ++ " " ++ snippet)))) 3)) := by
  constructor
  · intro h
    simp [applyLocationBonus, h]
  · intro h
    rw [applyLocationBonus, if_pos h, sortDesc_realEntries_head]
    constructor
    · intro h0
      simp [scoreOf_specTopCategory, h0]
    · intro hpos
      simp [scoreOf_specTopCategory, hpos]

/-- C6 (witness): for the text "catering baltimore" the location bonus
adds exactly 3 to the top-scoring category. -/
theorem locationBonus_exact_witness :
    applyLocationBonus (lowerStr ("catering baltimore" ++ " " ++ ""))
        (baseScores (lowerStr ("catering baltimore" ++ " " ++ ""))) =
      addToCategory (baseScores (lowerStr ("catering baltimore" ++ " " ++ "")))
        (specTopCategory (baseScores (lowerStr ("catering baltimore" ++ " " ++ "")))) 3 :=
  ((locationBonus_exact ("catering baltimore") ("")).2 (by decide)).2 (by decide)

/-- C7: the deduplicator's output has exactly the input's normalized URLs
as keys, in first-seen order, each exactly once: its key list equals the
first-seen key list, which has no duplicates and contains exactly the
normalized URLs occurring in the input. -/
theorem dedup_unique_keys (leads : List Lead) :
    ((deduplicateLeads leads).map normKey = specFirstSeenKeys leads) ∧
    (specFirstSeenKeys leads).Nodup ∧
    (∀ k, k ∈ specFirstSeenKeys leads ↔ ∃ l ∈ leads, normKey l = k) :=
  ⟨dedup_map_normKey leads, specFirstSeenKeys_nodup leads,
   fun k => by simpa [specFirstSeenKeys] using mem_foldl_insertKey leads [] k⟩

/-- C8: the title parser's name is the first `" - "`-separated segment of
the suffix-stripped title, trimmed (the whole trimmed string without a
delimiter), and its headline is the remaining segments rejoined with
`" - "` and trimmed (empty without a delimiter); in particular
"A - B | LinkedIn" yields ("A", "B"). -/
theorem titleParser_spec (title : String) :
    extractNameFromTitle title = specNameFromTitle title ∧
    extractHeadlineFromTitle title = specHeadlineFromTitle title ∧
    extractNameFromTitle ("A - B | LinkedIn") = "A" ∧
    extractHeadlineFromTitle ("A - B | LinkedIn") = "B" := by
  refine ⟨?_, ?_, by decide, by decide⟩
  · unfold extractNameFromTitle specNameFromTitle
    cases hp : splitOnStr (stripLinkedInSuffix title) (" - ") with
    | nil => simp [hp]
    | cons a t => simp [hp]
  · unfold extractHeadlineFromTitle specHeadlineFromTitle
    cases hp : splitOnStr (stripLinkedInSuffix title) (" - ") with
    | nil => simp [hp, trimJs, joinSep]
    | cons a t =>
        cases t with
        | nil => simp [hp, trimJs, joinSep]
        | cons b t2 => simp [hp]

/-- C9: a CSV field is quoted, with internal double quotes doubled, exactly
when its raw text contains a comma, a double quote, a line feed or a
carriage return; and the empty lead list serializes to the empty string
with no header row. -/
theorem csv_escaping_spec (s : String) :
    escapeCSVField s =
      (if (',' ∈ s.data ∨ '"' ∈ s.data ∨ '\n' ∈ s.data ∨ '\r' ∈ s.data) then
        ("\"" ++ doubleQuotes s ++ "\"")
      else s) ∧
    leadsToCSV [] = "" := by
  refine ⟨?_, rfl⟩
  unfold escapeCSVField
  split_ifs with h1 h2 h2
  · rfl
  · exact absurd ((needsQuoting_iff s).mp h1) h2
  · exact absurd ((needsQuoting_iff s).mpr h2) h1
  · rfl

/-- C10: the deduplicator is idempotent: deduplicating its own output
returns that output unchanged. -/
theorem dedup_idempotent (leads : List Lead) :
    deduplicateLeads (deduplicateLeads leads) = deduplicateLeads leads :=
  dedup_of_nodup_keys _ (by rw [dedup_map_normKey]; exact specFirstSeenKeys_nodup leads)
